import Mathlib

/-!
# Verification of the vibe-logger TypeScript core

A shallow embedding of the vibe-logger structured-logging core
(`src/logger.ts`, `src/config.ts`, `src/utils/fileSystem.ts`,
`src/types.ts`) together with proofs and refutations of the
specification claims about it.

JavaScript runtime values that may be shared or cyclic are modelled by a
heap of objects (`Heap`); machine behaviour such as `JSON.stringify`
cycle errors is made explicit.  Asynchronous per-path file writes are
modelled as an interleaving trace semantics.
-/

namespace VibeSpec

/-! ## Log levels (`LogLevel` in types.ts) -/

/-- The five log levels, `DEBUG < INFO < WARNING < ERROR < CRITICAL`. -/
inductive LogLevel where
  | DEBUG
  | INFO
  | WARNING
  | ERROR
  | CRITICAL
deriving DecidableEq

/-- The string value of each enum member (the enum is string valued). -/
def levelToString : LogLevel → String
  | .DEBUG => "DEBUG"
  | .INFO => "INFO"
  | .WARNING => "WARNING"
  | .ERROR => "ERROR"
  | .CRITICAL => "CRITICAL"

/-- Recover a `LogLevel` from its string value. -/
def stringToLevel (s : String) : Option LogLevel :=
  if s = "DEBUG" then some .DEBUG
  else if s = "INFO" then some .INFO
  else if s = "WARNING" then some .WARNING
  else if s = "ERROR" then some .ERROR
  else if s = "CRITICAL" then some .CRITICAL
  else none

/-! ## JavaScript runtime values

Context maps and thrown error values are arbitrary JavaScript values,
possibly with shared or cyclic object references.  We model primitives
directly and composite values as references into a heap of objects. -/

/-- JavaScript primitive values.  `pbigint` stands for a `BigInt`,
which `JSON.stringify` refuses to serialize (it throws). -/
inductive Prim where
  | pnull
  | pundef
  | pbool (b : Bool)
  | pnum (n : Int)
  | pstr (s : String)
  | pbigint (n : Int)
deriving DecidableEq

/-- A JavaScript value: a primitive, or a reference to a heap object. -/
inductive HRef where
  | prim (p : Prim)
  | obj (i : Nat)
deriving DecidableEq

/-- A heap object: its enumerable own properties, plus, when the object
is an `Error` instance, its (non-enumerable) `name`/`message`/`stack`
data used by `instanceof Error` handling. -/
structure HObj where
  isError : Option (String × String × Option String)
  fields : List (String × HRef)
deriving DecidableEq

/-- A heap of JavaScript objects; `HRef.obj i` points at `objects[i]`. -/
structure Heap where
  objects : List HObj
deriving DecidableEq

/-- JSON values, the possible results of `JSON.stringify` seen at the
value level (`jundef` is the `undefined` result for non-serializable
roots). -/
inductive JVal where
  | jnull
  | jundef
  | jbool (b : Bool)
  | jnum (n : Int)
  | jstr (s : String)
  | jobj (fields : List (String × JVal))

/-- The sentinel `safeStringify` substitutes for a repeated reference. -/
def circularSentinel : String := "[Circular Reference]"

/-- Ways `JSON.stringify` can fail inside `safeStringify`:
`fuelOut` models unbounded recursion (it is proved unreachable),
`bigint` models the `TypeError` thrown on `BigInt` values. -/
inductive SErr where
  | fuelOut
  | bigint
deriving DecidableEq

/-- Serialize the property list of one object with a given serializer
for the values, threading the shared `seen` set from property to
property; properties whose value is `undefined` are omitted. -/
def serFieldsWith
    (rec : List Nat → HRef → Except SErr (List Nat × JVal)) :
    List Nat → List (String × HRef) →
      Except SErr (List Nat × List (String × JVal))
  | seen, [] => .ok (seen, [])
  | seen, (k, v) :: rest =>
    if v = .prim .pundef then serFieldsWith rec seen rest
    else
      match rec seen v with
      | .error e => .error e
      | .ok (seen2, jv) =>
        match serFieldsWith rec seen2 rest with
        | .error e => .error e
        | .ok (seen3, jrest) => .ok (seen3, (k, jv) :: jrest)

/-- `JSON.stringify` with the `safeStringify` replacer of logger.ts
lines 91-112: a single `WeakSet` (`seen`) is shared by the whole
traversal; a value already in the set is replaced by the sentinel
string, otherwise it is added before its properties are visited. -/
def serVal (h : Heap) : Nat → List Nat → HRef → Except SErr (List Nat × JVal)
  | _, seen, .prim .pnull => .ok (seen, .jnull)
  | _, seen, .prim .pundef => .ok (seen, .jundef)
  | _, seen, .prim (.pbool b) => .ok (seen, .jbool b)
  | _, seen, .prim (.pnum n) => .ok (seen, .jnum n)
  | _, seen, .prim (.pstr s) => .ok (seen, .jstr s)
  | _, _, .prim (.pbigint _) => .error .bigint
  | 0, _, .obj _ => .error .fuelOut
  | fuel+1, seen, .obj i =>
    if i ∈ seen then .ok (seen, .jstr circularSentinel)
    else
      match h.objects[i]? with
      | none => .ok (seen, .jnull)
      | some o =>
        match serFieldsWith (serVal h fuel) (i :: seen) o.fields with
        | .error e => .error e
        | .ok (seen2, jfs) => .ok (seen2, .jobj jfs)

/-- The property list of one object as `serVal` serializes it. -/
def serFields (h : Heap) (fuel : Nat) : List Nat → List (String × HRef) →
    Except SErr (List Nat × List (String × JVal)) :=
  serFieldsWith (serVal h fuel)

/-- Fuel that always suffices: one more than the number of heap
objects (the `seen` set grows at every descent into an object). -/
def serFuel (h : Heap) : Nat := h.objects.length + 1

/-- Serialize one root value the way one `safeStringify` call does. -/
def serValTop (h : Heap) (r : HRef) : Except SErr JVal :=
  match serVal h (serFuel h) [] r with
  | .error e => .error e
  | .ok (_, v) => .ok v

/-- Render the failures of `JSON.stringify` as `String(error)` does. -/
def sErrMessage : SErr → String
  | .fuelOut => "RangeError: Maximum call stack size exceeded"
  | .bigint => "TypeError: Do not know how to serialize a BigInt"

/-- The fixed-shape fallback object of `safeStringify`
(logger.ts lines 104-111). -/
def fallbackJson (errMsg ts : String) : JVal :=
  .jobj [("error", .jstr "Failed to serialize log entry"),
         ("originalError", .jstr errMsg),
         ("timestamp", .jstr ts)]

/-- `safeStringify` at the value level: its try/catch turns any
stringify failure into the fixed fallback object (`ts` is the wall
clock value used in the fallback's timestamp field). -/
def safeStringify (h : Heap) (ts : String) (r : HRef) : JVal :=
  match serValTop h r with
  | .ok v => v
  | .error e => fallbackJson (sErrMessage e) ts

/-! ## Plain `JSON.stringify` (no replacer)

`extractErrorInfo` (logger.ts lines 147-179) renders non-`Error`
composite values with a bare `JSON.stringify(error)` call, which —
unlike `safeStringify` — throws a `TypeError` when it meets a cyclic
structure (an object that is its own ancestor on the traversal path). -/

/-- Failures of a bare `JSON.stringify` call: a circular structure, a
`BigInt` value, or (never reached for the fuel we use) fuel exhaustion. -/
inductive PErr where
  | circular
  | bigintP
  | fuelOutP
deriving DecidableEq

/-- Bare `JSON.stringify` on a property list with a given serializer
for the values; `undefined` properties are omitted.  Unlike
`serFieldsWith`, no state is threaded between siblings. -/
def plainFieldsWith (rec : HRef → Except PErr JVal) :
    List (String × HRef) → Except PErr (List (String × JVal))
  | [] => .ok []
  | (k, v) :: rest =>
    if v = .prim .pundef then plainFieldsWith rec rest
    else
      match rec v with
      | .error e => .error e
      | .ok jv =>
        match plainFieldsWith rec rest with
        | .error e => .error e
        | .ok jrest => .ok ((k, jv) :: jrest)

/-- Bare `JSON.stringify` on a value: `path` is the list of ancestor
objects of the current position; revisiting one throws. -/
def plainVal (h : Heap) : Nat → List Nat → HRef → Except PErr JVal
  | _, _, .prim .pnull => .ok .jnull
  | _, _, .prim .pundef => .ok .jundef
  | _, _, .prim (.pbool b) => .ok (.jbool b)
  | _, _, .prim (.pnum n) => .ok (.jnum n)
  | _, _, .prim (.pstr s) => .ok (.jstr s)
  | _, _, .prim (.pbigint _) => .error .bigintP
  | 0, _, .obj _ => .error .fuelOutP
  | fuel+1, path, .obj i =>
    if i ∈ path then .error .circular
    else
      match h.objects[i]? with
      | none => .ok .jnull
      | some o =>
        match plainFieldsWith (plainVal h fuel (i :: path)) o.fields with
        | .error e => .error e
        | .ok jfs => .ok (.jobj jfs)

/-- Bare `JSON.stringify` of a root value (the traversal path can never
be longer than the number of heap objects, so `serFuel` suffices). -/
def plainValTop (h : Heap) (r : HRef) : Except PErr JVal :=
  plainVal h (serFuel h) [] r

/-! ## Rendering a JSON value to its text (`JSON.stringify` output) -/

/-- JSON string escaping of one character. -/
def escapeChar (c : Char) : String :=
  if c = '"' then "\\\""
  else if c = '\\' then "\\\\"
  else if c = '\n' then "\\n"
  else if c = '\t' then "\\t"
  else if c = '\r' then "\\r"
  else String.singleton c

/-- JSON string escaping. -/
def escapeString (s : String) : String :=
  String.join (s.toList.map escapeChar)

/-- A JSON string literal. -/
def quoteString (s : String) : String :=
  "\"" ++ escapeString s ++ "\""

mutual

/-- The text `JSON.stringify` produces for a JSON value (compact form,
no indent argument). -/
def renderJVal : JVal → String
  | .jnull => "null"
  | .jundef => "undefined"
  | .jbool true => "true"
  | .jbool false => "false"
  | .jnum n => toString n
  | .jstr s => quoteString s
  | .jobj fs => "\x7b" ++ renderFields fs ++ "\x7d"

/-- Comma-separated `"key":value` pairs. -/
def renderFields : List (String × JVal) → String
  | [] => ""
  | [(k, v)] => quoteString k ++ ":" ++ renderJVal v
  | (k, v) :: rest => quoteString k ++ ":" ++ renderJVal v ++ "," ++ renderFields rest

end

/-! ## Error normalization (`extractErrorInfo`, logger.ts lines 147-179) -/

/-- The `ErrorInfo` record of types.ts (the original value is kept as
the JavaScript value that was thrown). -/
structure ErrorInfo where
  message : String
  name : String
  stack : Option String
  originalError : HRef
deriving DecidableEq

/-- `String(v)` coercion for primitives. -/
def jsStringOfPrim : Prim → String
  | .pnull => "null"
  | .pundef => "undefined"
  | .pbool true => "true"
  | .pbool false => "false"
  | .pnum n => toString n
  | .pstr s => s
  | .pbigint n => toString n

/-- `extractErrorInfo` of logger.ts lines 147-179.  The four branches:
`instanceof Error` values use their own message/name/stack; strings
become `StringError`; other non-null objects become `ObjectError` with
a bare `JSON.stringify` rendering (which can throw: the `.error` result
models the exception propagating out of the method); everything else
becomes `UnknownError` via `String(error)`. -/
def extractErrorInfo (h : Heap) (err : HRef) : Except PErr ErrorInfo :=
  match err with
  | .obj i =>
    match h.objects[i]? with
    | some o =>
      match o.isError with
      | some (name, message, stack) => .ok ⟨message, name, stack, err⟩
      | none =>
        match plainValTop h err with
        | .error e => .error e
        | .ok jv => .ok ⟨renderJVal jv, "ObjectError", none, err⟩
    | none =>
      match plainValTop h err with
      | .error e => .error e
      | .ok jv => .ok ⟨renderJVal jv, "ObjectError", none, err⟩
  | .prim (.pstr s) => .ok ⟨s, "StringError", none, err⟩
  | .prim p => .ok ⟨jsStringOfPrim p, "UnknownError", none, err⟩

/-! ## Log entries (`LogEntry` in types.ts) and their construction -/

/-- The environment snapshot attached to every entry
(`EnvironmentInfo` in types.ts). -/
structure EnvironmentInfo where
  node_version : String
  os : String
  platform : String
  architecture : String
  runtime : String
deriving DecidableEq

/-- A log entry.  `context` holds arbitrary JavaScript values (as heap
references); optional fields are `Option` (`undefined` when absent). -/
structure LogEntry where
  timestamp : String
  level : LogLevel
  correlation_id : String
  operation : String
  message : String
  context : List (String × HRef)
  environment : EnvironmentInfo
  source : Option String
  stack_trace : Option String
  human_note : Option String
  ai_todo : Option String
deriving DecidableEq

/-- Per-call options (`LogOptions` in types.ts); `includeStack` is the
truthiness of the optional flag. -/
structure LogOptions where
  context : Option (List (String × HRef))
  humanNote : Option String
  aiTodo : Option String
  includeStack : Bool
deriving DecidableEq

/-- The ambient, call-time inputs of one logging call: the wall clock
reading, the best-effort caller location, and the stack text captured
by `new Error().stack` (always a string on Node). -/
structure CallSite where
  timestamp : String
  source : Option String
  stackCapture : String
deriving DecidableEq

/-- `createLogEntry` of logger.ts lines 184-209: the stack trace is
attached exactly when the level is ERROR or CRITICAL or the flag is
set. -/
def createLogEntry (correlationId : String) (environment : EnvironmentInfo)
    (site : CallSite) (level : LogLevel) (operation message : String)
    (options : LogOptions) : LogEntry :=
  { timestamp := site.timestamp
    level := level
    correlation_id := correlationId
    operation := operation
    message := message
    context := options.context.getD []
    environment := environment
    source := site.source
    stack_trace :=
      if level = .ERROR ∨ level = .CRITICAL ∨ options.includeStack then
        some site.stackCapture
      else none
    human_note := options.humanNote
    ai_todo := options.aiTodo }

/-- The entry `logException` (logger.ts lines 311-342) builds.  A
`.error` result models the normalization itself throwing, in which case
no entry is produced and the method's promise rejects. -/
def logExceptionEntry (h : Heap) (correlationId : String)
    (environment : EnvironmentInfo) (site : CallSite) (operation : String)
    (err : HRef) (options : LogOptions) : Except PErr LogEntry :=
  match extractErrorInfo h err with
  | .error e => .error e
  | .ok info =>
    .ok
      { timestamp := site.timestamp
        level := .ERROR
        correlation_id := correlationId
        operation := operation
        message := info.name ++ ": " ++ info.message
        context := options.context.getD [] ++
          [("error_type", .prim (.pstr info.name)),
           ("original_error", info.originalError)]
        environment := environment
        source := site.source
        stack_trace := info.stack
        human_note := options.humanNote
        ai_todo := options.aiTodo }

/-- Read a key from a context object built by spreading: the later
binding wins, as with `\x7b...base, k: v\x7d` in JavaScript. -/
def ctxGet (l : List (String × HRef)) (k : String) : Option HRef :=
  l.reverse.lookup k

/-! ## Configuration resolution (`config.ts`) -/

/-- A fully resolved configuration (`Required<VibeLoggerConfig>`). -/
structure Config where
  correlationId : String
  logFile : String
  autoSave : Bool
  maxFileSizeMb : ℚ
  keepLogsInMemory : Bool
  maxMemoryLogs : Int
  createDirs : Bool
deriving DecidableEq

/-- A partial configuration: user options, or the overrides contributed
by `loadFromEnvironment` (each present field replaces the value below
it, as `Object.assign` does). -/
structure ConfigOpts where
  correlationId : Option String := none
  logFile : Option String := none
  autoSave : Option Bool := none
  maxFileSizeMb : Option ℚ := none
  keepLogsInMemory : Option Bool := none
  maxMemoryLogs : Option Int := none
  createDirs : Option Bool := none
deriving DecidableEq

/-- `DEFAULT_CONFIG` of config.ts. -/
def DEFAULT_CONFIG : Config :=
  { correlationId := ""
    logFile := ""
    autoSave := true
    maxFileSizeMb := 10
    keepLogsInMemory := true
    maxMemoryLogs := 1000
    createDirs := true }

/-- `Object.assign(config, opts)`: present fields override. -/
def applyOpts (c : Config) (o : ConfigOpts) : Config :=
  { correlationId := o.correlationId.getD c.correlationId
    logFile := o.logFile.getD c.logFile
    autoSave := o.autoSave.getD c.autoSave
    maxFileSizeMb := o.maxFileSizeMb.getD c.maxFileSizeMb
    keepLogsInMemory := o.keepLogsInMemory.getD c.keepLogsInMemory
    maxMemoryLogs := o.maxMemoryLogs.getD c.maxMemoryLogs
    createDirs := o.createDirs.getD c.createDirs }

/-- The nondeterministic inputs of default generation: the
`Date.now()`/random token of `generateCorrelationId`, the compact UTC
timestamp, and the resolved logs directory. -/
structure GenSeed where
  correlationToken : String
  fileTimestamp : String
  logsDir : String
deriving DecidableEq

/-- `generateCorrelationId`: `vibe-<now>-<random>`. -/
def generateCorrelationId (g : GenSeed) : String :=
  "vibe-" ++ g.correlationToken

/-- `generateDefaultLogFile`: `<logsDir>/vibe_<timestamp>.log`. -/
def generateDefaultLogFile (g : GenSeed) : String :=
  g.logsDir ++ "/vibe_" ++ g.fileTimestamp ++ ".log"

/-- First half of `generateDefaults`: fill an empty correlation id. -/
def fillCorrelationId (c : Config) (g : GenSeed) : Config :=
  if c.correlationId = "" then
    { c with correlationId := generateCorrelationId g }
  else c

/-- Second half of `generateDefaults`: fill an empty log file path. -/
def fillLogFile (c : Config) (g : GenSeed) : Config :=
  if c.logFile = "" then
    { c with logFile := generateDefaultLogFile g }
  else c

/-- `generateDefaults` of config.ts lines 154-164: empty correlation id
and log file are filled with generated values. -/
def generateDefaults (c : Config) (g : GenSeed) : Config :=
  fillLogFile (fillCorrelationId c g) g

/-- The `VibeLoggerConfigManager` constructor: defaults, then
environment overrides, then explicit options, then default generation. -/
def resolveConfig (env opts : ConfigOpts) (g : GenSeed) : Config :=
  generateDefaults (applyOpts (applyOpts DEFAULT_CONFIG env) opts) g

/-- The result record of `validate` (config.ts lines 231-254). -/
structure ValidationResult where
  valid : Bool
  errors : List String
deriving DecidableEq

/-- `validate` of config.ts lines 231-254. -/
def validate (c : Config) : ValidationResult :=
  let errors :=
    (if c.maxFileSizeMb ≤ 0 then ["maxFileSizeMb must be greater than 0"] else []) ++
    (if c.maxMemoryLogs < 0 then ["maxMemoryLogs must be non-negative"] else []) ++
    (if c.correlationId = "" then ["correlationId cannot be empty"] else []) ++
    (if c.logFile = "" then ["logFile cannot be empty"] else [])
  { valid := errors.isEmpty, errors := errors }

/-- The `VibeLogger` constructor throws exactly when `validate` reports
the resolved configuration invalid (logger.ts lines 63-69); the later
directory check only flips `autoSave` off, it never throws. -/
def constructorThrows (env opts : ConfigOpts) (g : GenSeed) : Bool :=
  !(validate (resolveConfig env opts g)).valid

/-! ## The in-memory store (logger.ts `logs` array) -/

/-- The mutable state of one logger relevant to the memory store. -/
structure LoggerState where
  config : Config
  logs : List LogEntry
deriving DecidableEq

/-- `addToMemory` of logger.ts lines 214-227: push, then `shift()` the
oldest entry when the cap is exceeded; a no-op when
`keepLogsInMemory` is false. -/
def addToMemory (st : LoggerState) (e : LogEntry) : LoggerState :=
  if st.config.keepLogsInMemory then
    let logs1 := st.logs ++ [e]
    if (logs1.length : Int) > st.config.maxMemoryLogs then
      { st with logs := logs1.tail }
    else
      { st with logs := logs1 }
  else st

/-- `getLogs` of logger.ts lines 365-375 with no filter: a copy of the
internal array. -/
def getLogs (st : LoggerState) : List LogEntry :=
  st.logs

/-- `arr.slice(beg)` for a possibly negative `beg`, as JavaScript
computes it (note `slice(-0)` is `slice(0)`). -/
def jsSliceFrom (l : List LogEntry) (beg : Int) : List LogEntry :=
  let len : Int := l.length
  let start : Int := if beg < 0 then max (len + beg) 0 else min beg len
  l.drop start.toNat

/-! ## Saving and loading entries (`saveAllLogs` / `loadLogsFromFile`)

A JSONL file is modelled as its list of (trimmed, nonempty) lines; each
line either fails `JSON.parse` (`junk`) or parses to a JSON value.
`JSON.stringify` never emits a raw newline, so each saved entry is
exactly one line, and `JSON.parse` of that line returns the same JSON
value. -/

/-- One nonempty line of a JSONL file. -/
inductive FileLine where
  | junk (s : String)
  | json (v : JVal)

/-- The optional string fields of an entry, as JSON object properties:
`undefined` fields are omitted by `JSON.stringify`. -/
def optJField (k : String) (v : Option String) : List (String × JVal) :=
  match v with
  | some s => [(k, .jstr s)]
  | none => []

/-- The `environment` property of a serialized entry. -/
def envJson (env : EnvironmentInfo) : JVal :=
  .jobj [("node_version", .jstr env.node_version),
         ("os", .jstr env.os),
         ("platform", .jstr env.platform),
         ("architecture", .jstr env.architecture),
         ("runtime", .jstr env.runtime)]

/-- `safeStringify(entry)` at the JSON-value level: the entry object's
properties in construction order, with the context serialized by the
shared-`WeakSet` traversal; if that traversal throws (`BigInt` in the
context), the whole line degrades to the fallback object. -/
def entrySafeJson (h : Heap) (ts : String) (e : LogEntry) : JVal :=
  match serFields h (serFuel h) [] e.context with
  | .error err => fallbackJson (sErrMessage err) ts
  | .ok (_, ctxJ) =>
    .jobj ([("timestamp", .jstr e.timestamp),
            ("level", .jstr (levelToString e.level)),
            ("correlation_id", .jstr e.correlation_id),
            ("operation", .jstr e.operation),
            ("message", .jstr e.message),
            ("context", .jobj ctxJ),
            ("environment", envJson e.environment)] ++
           optJField "source" e.source ++
           optJField "stack_trace" e.stack_trace ++
           optJField "human_note" e.human_note ++
           optJField "ai_todo" e.ai_todo)

/-- `saveAllLogs` (logger.ts lines 390-413), successful path: the file
is overwritten with one `safeStringify` line per entry, in order. -/
def saveAllLogsFile (h : Heap) (ts : String) (logs : List LogEntry) : List FileLine :=
  logs.map (fun e => FileLine.json (entrySafeJson h ts e))

/-- Property access on a parsed JSON object. -/
def getField (fs : List (String × JVal)) (k : String) : Option JVal :=
  fs.lookup k

/-- JavaScript truthiness of a parsed JSON value. -/
def jvTruthy : JVal → Bool
  | .jnull => false
  | .jundef => false
  | .jbool b => b
  | .jnum n => n ≠ 0
  | .jstr s => s ≠ ""
  | .jobj _ => true

/-- Truthiness of an object property (absent means `undefined`). -/
def fieldTruthy (fs : List (String × JVal)) (k : String) : Bool :=
  (getField fs k).elim false jvTruthy

/-- A parsed JSON property that must be a string. -/
def asString : Option JVal → Option String
  | some (.jstr s) => some s
  | _ => none

/-- A parsed context value back as a heap reference.  Only primitive
values are representable without allocating; composite context values
in a loaded file are outside this typed model. -/
def jvalToHRef : JVal → Option HRef
  | .jnull => some (.prim .pnull)
  | .jbool b => some (.prim (.pbool b))
  | .jnum n => some (.prim (.pnum n))
  | .jstr s => some (.prim (.pstr s))
  | _ => none

/-- A parsed context object back as a context map. -/
def ctxOfJson : List (String × JVal) → Option (List (String × HRef))
  | [] => some []
  | (k, v) :: rest =>
    match jvalToHRef v, ctxOfJson rest with
    | some r, some t => some ((k, r) :: t)
    | _, _ => none

/-- A parsed environment object back as an `EnvironmentInfo`. -/
def envOfJson : Option JVal → Option EnvironmentInfo
  | some (.jobj fs) => do
    let nv ← asString (getField fs "node_version")
    let os ← asString (getField fs "os")
    let pf ← asString (getField fs "platform")
    let ar ← asString (getField fs "architecture")
    let rt ← asString (getField fs "runtime")
    some ⟨nv, os, pf, ar, rt⟩
  | _ => none

/-- An optional string property of a parsed entry. -/
def optStrField (fs : List (String × JVal)) (k : String) : Option String :=
  match getField fs k with
  | some (.jstr s) => some s
  | _ => none

/-- A parsed JSON object back as a typed `LogEntry` (the code casts the
parsed object directly; lines whose fields do not have the shapes the
typed model represents are skipped here). -/
def entryOfJson (v : JVal) : Option LogEntry :=
  match v with
  | .jobj fs => do
    let ts ← asString (getField fs "timestamp")
    let lvs ← asString (getField fs "level")
    let lv ← stringToLevel lvs
    let cid ← asString (getField fs "correlation_id")
    let op ← asString (getField fs "operation")
    let msg ← asString (getField fs "message")
    let ctxJ ← match getField fs "context" with
      | some (.jobj cf) => some cf
      | _ => none
    let ctx ← ctxOfJson ctxJ
    let env ← envOfJson (getField fs "environment")
    some ⟨ts, lv, cid, op, msg, ctx, env,
          optStrField fs "source", optStrField fs "stack_trace",
          optStrField fs "human_note", optStrField fs "ai_todo"⟩
  | _ => none

/-- One iteration of the `loadLogsFromFile` loop (logger.ts lines
421-431): a line that fails to parse is skipped, and a parsed object is
kept only when its `timestamp`, `level` and `operation` properties are
all truthy. -/
def parseLogLine (l : FileLine) : Option LogEntry :=
  match l with
  | .junk _ => none
  | .json v =>
    match v with
    | .jobj fs =>
      if fieldTruthy fs "timestamp" && fieldTruthy fs "level" &&
          fieldTruthy fs "operation" then
        entryOfJson v
      else none
    | _ => none

/-- `loadLogsFromFile` of logger.ts lines 418-444: valid lines are
appended to memory (with no `keepLogsInMemory` check), then the array
is trimmed with `slice(-maxMemoryLogs)` when it exceeds the cap. -/
def loadLogsFromFile (st : LoggerState) (file : List FileLine) : LoggerState :=
  let loaded := file.filterMap parseLogLine
  let logs1 := st.logs ++ loaded
  if (logs1.length : Int) > st.config.maxMemoryLogs then
    { st with logs := jsSliceFrom logs1 (-st.config.maxMemoryLogs) }
  else
    { st with logs := logs1 }

/-! ## The per-path file pipeline (`saveToFile` + `FileSystemManager`)

`saveToFile` (logger.ts lines 232-251) first awaits
`rotateFileIfNeeded` and then calls `appendToFile`.  Only the append is
chained on the per-path `writeQueues` promise (fileSystem.ts lines
69-106); the rotation check/rename runs outside the queue.  We model
one path's history as an interleaving of atomic events:

* `rotate t` — submission `t` runs `rotateFileIfNeeded` (exists check,
  size check, and rename, taken here as one atomic step — a coarser
  model than the real three awaits, which only makes interleavings
  rarer);
* `enqueue t` — submission `t`'s `appendToFile` call chains its write
  onto the per-path queue;
* `flush` — the queue executes its oldest pending write: one whole
  line is appended by a single `fs.appendFile` call (creating the file
  when absent).
-/

/-- One atomic event on a single path. -/
inductive Ev where
  | rotate (tid : Nat)
  | enqueue (tid : Nat)
  | flush
deriving DecidableEq

/-- The state of one path: the active file's lines (`none` when the
file does not exist), the contents of rotated-away files (most recent
first), and the pending append queue. -/
structure FileState where
  active : Option (List String)
  rotated : List (List String)
  queue : List String
deriving DecidableEq

/-- The byte size of a file's content. -/
def fileSize (content : List String) : Nat :=
  (content.map String.length).sum

/-- The path's initial state: no file, nothing queued. -/
def initFileState : FileState :=
  { active := none, rotated := [], queue := [] }

/-- The effect of one event.  `maxSize` is the rotation threshold (in
the same byte units as `fileSize`); `lines t` is the serialized line of
submission `t`.  Rotation skips a nonexistent file, leaves a file at or
under the threshold alone, and otherwise renames the file away
(`rotateFileIfNeeded`, fileSystem.ts lines 111-146). -/
def stepEv (maxSize : Nat) (lines : Nat → String) (s : FileState) : Ev → FileState
  | .rotate _ =>
    match s.active with
    | none => s
    | some content =>
      if fileSize content ≤ maxSize then s
      else { s with active := none, rotated := content :: s.rotated }
  | .enqueue t => { s with queue := s.queue ++ [lines t] }
  | .flush =>
    match s.queue with
    | [] => s
    | l :: rest =>
      { active := some ((s.active.getD []) ++ [l])
        rotated := s.rotated
        queue := rest }

/-- Run a trace of events from a state. -/
def runTrace (maxSize : Nat) (lines : Nat → String) (s : FileState)
    (tr : List Ev) : FileState :=
  tr.foldl (stepEv maxSize lines) s

/-- Each `flush` needs a nonempty queue: check it by tracking the
pending count along the trace. -/
def flushesOk (pending : Nat) : List Ev → Bool
  | [] => true
  | .enqueue _ :: rest => flushesOk (pending + 1) rest
  | .flush :: rest => decide (0 < pending) && flushesOk (pending - 1) rest
  | .rotate _ :: rest => flushesOk pending rest

/-- A trace of the code on `n` submissions: every submission performs
its rotation check exactly once and enqueues exactly once, in that
order (they are sequenced inside `saveToFile`), and a flush only
happens when a write is pending. -/
def validTrace (n : Nat) (tr : List Ev) : Bool :=
  (List.range n).all (fun t =>
    tr.count (Ev.rotate t) = 1 && tr.count (Ev.enqueue t) = 1 &&
      tr.indexOf (Ev.rotate t) < tr.indexOf (Ev.enqueue t)) &&
  tr.all (fun e =>
    match e with
    | .rotate t => t < n
    | .enqueue t => t < n
    | .flush => true) &&
  flushesOk 0 tr

/-- All lines ever durably written, in chronological order: rotated
files oldest first, then the active file. -/
def allLines (s : FileState) : List String :=
  s.rotated.reverse.flatten ++ s.active.getD []

/-- The submissions in enqueue order (which is write order). -/
def enqOrder (tr : List Ev) : List Nat :=
  tr.filterMap (fun e =>
    match e with
    | .enqueue t => some t
    | _ => none)

/-- A complete trace: valid, and every queued write was flushed. -/
def completeTrace (n : Nat) (tr : List Ev) : Bool :=
  validTrace n tr && tr.count Ev.flush = (enqOrder tr).length

/-- Index (in the trace) of submission `t`'s rotation check. -/
def rotIdx (tr : List Ev) (t : Nat) : Nat :=
  tr.indexOf (Ev.rotate t)

/-- How many writes are queued ahead of submission `t`'s write. -/
def enqOrd (tr : List Ev) (t : Nat) : Nat :=
  (enqOrder (tr.take (tr.indexOf (Ev.enqueue t)))).length

/-- Indices of the flush events of a trace. -/
def flushIdxs (tr : List Ev) : List Nat :=
  (tr.enum.filter (fun p => p.2 == Ev.flush)).map (fun p => p.1)

/-- Index of the flush that appends submission `t`'s line (the
`enqOrd tr t`-th flush). -/
def appendIdx (tr : List Ev) (t : Nat) : Nat :=
  ((flushIdxs tr).get? (enqOrd tr t)).getD tr.length

/-- Does the event at index `i` belong to submission `u` (its rotation
check, its enqueue, or the flush that writes its line)? -/
def belongsTo (tr : List Ev) (i u : Nat) : Bool :=
  match tr[i]? with
  | some (.rotate v) => v == u
  | some (.enqueue v) => v == u
  | some .flush => i == appendIdx tr u
  | none => false

/-- The atomicity the claim asserts: no event of another submission
falls strictly between a submission's rotation size check and the
append of its line. -/
def interleaveFree (n : Nat) (tr : List Ev) : Bool :=
  (List.range n).all (fun t =>
    (List.range tr.length).all (fun i =>
      !(decide (rotIdx tr t < i) && decide (i < appendIdx tr t) &&
        (List.range n).any (fun u => !(u == t) && belongsTo tr i u))))

/-! ## `getConfig` and object copying (logger.ts lines 449-451)

`getConfig` returns `\x7b ...this.config \x7d`: a freshly allocated
object whose (all primitive-valued) fields are copied from the stored
configuration.  To state the frame property we model configuration
objects as cells of a store addressed by allocation order. -/

/-- A store of configuration objects. -/
structure CfgStore where
  cells : List Config
deriving DecidableEq

/-- Read the object at an address. -/
def readCell (s : CfgStore) (a : Nat) : Option Config :=
  s.cells[a]?

/-- Overwrite the object at an address (a field mutation is a special
case). -/
def writeCell (s : CfgStore) (a : Nat) (c : Config) : CfgStore :=
  ⟨s.cells.set a c⟩

/-- `getConfig`: allocate a fresh object holding a copy of the stored
configuration's fields and return its address. -/
def getConfigOp (s : CfgStore) (cfgAddr : Nat) : CfgStore × Nat :=
  match readCell s cfgAddr with
  | some c => (⟨s.cells ++ [c]⟩, s.cells.length)
  | none => (s, s.cells.length)

/-- Apply a sequence of mutations to the object at one address. -/
def applyWrites (s : CfgStore) (a : Nat) (ws : List Config) : CfgStore :=
  ws.foldl (fun st c => writeCell st a c) s

/-! ## Basic facts -/

theorem string_length_zero_eq_empty (s : String) (h : s.length = 0) : s = "" := by
  cases s with
  | mk data =>
    simp [String.length] at h
    simp [h]

theorem generateCorrelationId_ne_empty (g : GenSeed) :
    generateCorrelationId g ≠ "" := by
  intro he
  have hl := congrArg String.length he
  simp [generateCorrelationId] at hl
  exact absurd hl.1 (by decide)

theorem generateDefaultLogFile_ne_empty (g : GenSeed) :
    generateDefaultLogFile g ≠ "" := by
  intro he
  have hl := congrArg String.length he
  simp [generateDefaultLogFile] at hl
  exact absurd hl.1.1.2 (by decide)

theorem fillCorrelationId_ne (c : Config) (g : GenSeed) :
    (fillCorrelationId c g).correlationId ≠ "" := by
  unfold fillCorrelationId
  split
  · exact generateCorrelationId_ne_empty g
  · assumption

theorem fillCorrelationId_logFile (c : Config) (g : GenSeed) :
    (fillCorrelationId c g).logFile = c.logFile := by
  unfold fillCorrelationId
  split <;> rfl

theorem fillLogFile_ne (c : Config) (g : GenSeed) :
    (fillLogFile c g).logFile ≠ "" := by
  unfold fillLogFile
  split
  · exact generateDefaultLogFile_ne_empty g
  · assumption

theorem fillLogFile_correlationId (c : Config) (g : GenSeed) :
    (fillLogFile c g).correlationId = c.correlationId := by
  unfold fillLogFile
  split <;> rfl

/-- After `generateDefaults`, the correlation id is never empty. -/
theorem generateDefaults_correlationId_ne (c : Config) (g : GenSeed) :
    (generateDefaults c g).correlationId ≠ "" := by
  unfold generateDefaults
  rw [fillLogFile_correlationId]
  exact fillCorrelationId_ne c g

/-- After `generateDefaults`, the log file is never empty. -/
theorem generateDefaults_logFile_ne (c : Config) (g : GenSeed) :
    (generateDefaults c g).logFile ≠ "" := by
  unfold generateDefaults
  exact fillLogFile_ne _ g

/-- Default generation leaves the numeric bounds untouched. -/
theorem generateDefaults_maxFileSizeMb (c : Config) (g : GenSeed) :
    (generateDefaults c g).maxFileSizeMb = c.maxFileSizeMb := by
  unfold generateDefaults fillLogFile fillCorrelationId
  split <;> split <;> rfl

/-- Default generation leaves the memory cap untouched. -/
theorem generateDefaults_maxMemoryLogs (c : Config) (g : GenSeed) :
    (generateDefaults c g).maxMemoryLogs = c.maxMemoryLogs := by
  unfold generateDefaults fillLogFile fillCorrelationId
  split <;> split <;> rfl

/-- C7: constructing a `VibeLogger` throws if and only if the resolved
configuration has `maxFileSizeMb ≤ 0` or `maxMemoryLogs < 0`; every
other configuration — in particular one with an empty correlation id or
log file, which default generation fills after merging — constructs
without raising. -/
theorem constructor_throws_iff (env opts : ConfigOpts) (g : GenSeed) :
    constructorThrows env opts g = true ↔
      ((resolveConfig env opts g).maxFileSizeMb ≤ 0 ∨
       (resolveConfig env opts g).maxMemoryLogs < 0) := by
  have hcid : (resolveConfig env opts g).correlationId ≠ "" :=
    generateDefaults_correlationId_ne _ g
  have hlf : (resolveConfig env opts g).logFile ≠ "" :=
    generateDefaults_logFile_ne _ g
  unfold constructorThrows validate
  by_cases h1 : (resolveConfig env opts g).maxFileSizeMb ≤ 0 <;>
    by_cases h2 : (resolveConfig env opts g).maxMemoryLogs < 0 <;>
      simp [h1, h2, hcid, hlf]

/-! ## Concrete fixtures used by witnesses and counterexamples -/

/-- A sample environment snapshot. -/
def envEx : EnvironmentInfo :=
  ⟨"v20.0.0", "linux", "Linux", "x64", "node"⟩

/-- A sample call site. -/
def siteEx : CallSite :=
  ⟨"2024-06-01T12:00:00.000Z", none, "Error at <anonymous>"⟩

/-- Empty per-call options. -/
def optsNone : LogOptions := ⟨none, none, none, false⟩

/-- A heap with no objects. -/
def emptyHeap : Heap := ⟨[]⟩

/-- A valid configuration with the memory store disabled. -/
def cfgKeepOff : Config := ⟨"cid", "app.log", false, 10, false, 5, false⟩

/-- A valid configuration with a memory cap of zero. -/
def cfgZero : Config := ⟨"cid", "app.log", false, 10, true, 0, false⟩

/-- A well-formed JSONL line holding one entry. -/
def entryJsonEx : JVal :=
  .jobj [("timestamp", .jstr "2024-06-01T12:00:00.000Z"),
         ("level", .jstr "INFO"),
         ("correlation_id", .jstr "cid"),
         ("operation", .jstr "op"),
         ("message", .jstr "m"),
         ("context", .jobj []),
         ("environment", envJson envEx)]

/-- The file line for `entryJsonEx`. -/
def lineEx : FileLine := .json entryJsonEx

/-- The entry `entryJsonEx` denotes. -/
def entryEx : LogEntry :=
  ⟨"2024-06-01T12:00:00.000Z", .INFO, "cid", "op", "m", [], envEx,
   none, none, none, none⟩

/-- A heap whose only object is its own single property value. -/
def heapCyc : Heap := ⟨[⟨none, [("self", .obj 0)]⟩]⟩

/-- A heap whose only object is an `Error` instance with a stack. -/
def heapErr : Heap := ⟨[⟨some ("Error", "emsg", some "STACK"), []⟩]⟩

/-! ## C2: logging methods and error normalization never raising -/

/-- C2 (code bug): normalizing a cyclic thrown object raises.
`extractErrorInfo` renders `ObjectError` values with a bare
`JSON.stringify`, which throws on a circular structure, so
`logException` rejects instead of producing an entry — contradicting
the never-raise propagation policy the rest of the method enforces. -/
theorem logException_cyclic_object_rejects :
    extractErrorInfo heapCyc (.obj 0) = .error .circular ∧
    logExceptionEntry heapCyc "cid" envEx siteEx "op" (.obj 0) optsNone =
      .error .circular :=
  ⟨rfl, rfl⟩

/-! ## C3: the memory cap invariant -/

/-- C3 (code bug): with `maxMemoryLogs = 0` (a configuration `validate`
accepts), loading one valid line leaves one entry in memory: the trim
`logs.slice(-maxMemoryLogs)` is `slice(-0)`, which is `slice(0)` and
keeps everything, so the store's length exceeds the cap. -/
theorem load_zero_cap_overflow :
    (validate cfgZero).valid = true ∧
    cfgZero.maxMemoryLogs = 0 ∧
    (loadLogsFromFile ⟨cfgZero, []⟩ [lineEx]).logs = [entryEx] := by
  refine ⟨by decide, rfl, by decide⟩

/-! ## C5: disabled memory store -/

theorem addToMemory_keep_off (st : LoggerState) (e : LogEntry)
    (h : st.config.keepLogsInMemory = false) : addToMemory st e = st := by
  unfold addToMemory
  rw [h]
  simp

theorem foldl_addToMemory_keep_off (s : LoggerState) (entries : List LogEntry)
    (h : s.config.keepLogsInMemory = false) :
    entries.foldl addToMemory s = s := by
  induction entries with
  | nil => rfl
  | cons e rest ih =>
    rw [List.foldl_cons, addToMemory_keep_off s e h]
    exact ih

/-- C5 (amended): with `keepLogsInMemory = false`, the logging-call path
(`addToMemory`) is a no-op, so `getLogs()` stays empty after any number
of logging calls; `loadLogsFromFile`, however, does not consult the
flag and still adds loaded entries to memory. -/
theorem disabled_memory_logging_empty (cfg : Config) (entries : List LogEntry)
    (hk : cfg.keepLogsInMemory = false) :
    getLogs (entries.foldl addToMemory ⟨cfg, []⟩) = [] := by
  rw [foldl_addToMemory_keep_off ⟨cfg, []⟩ entries hk]
  rfl

/-- Witness for `disabled_memory_logging_empty` at a concrete
configuration and call sequence. -/
theorem disabled_memory_logging_empty_witness :
    cfgKeepOff.keepLogsInMemory = false ∧
    getLogs ([entryEx].foldl addToMemory ⟨cfgKeepOff, []⟩) = [] :=
  ⟨rfl, disabled_memory_logging_empty cfgKeepOff [entryEx] rfl⟩

/-- C5 (counterexample): with `keepLogsInMemory = false`, loading a
file with one valid line leaves the store nonempty, so "adding an entry
to the memory store is a no-op and the snapshot is always empty" fails
as stated for `loadLogsFromFile`. -/
theorem load_ignores_memory_flag_cex :
    cfgKeepOff.keepLogsInMemory = false ∧
    getLogs (loadLogsFromFile ⟨cfgKeepOff, []⟩ [lineEx]) = [entryEx] := by
  refine ⟨rfl, by decide⟩

/-! ## C9: `logException` on string error values -/

/-- C9: for every string error value `s`, `logException` produces an
ERROR-level entry whose message is `"StringError: " ++ s`, and whose
context holds the normalized name under `error_type` and the original
value under `original_error`. -/
theorem logException_string_shape (h : Heap) (cid : String)
    (env : EnvironmentInfo) (site : CallSite) (op s : String)
    (opts : LogOptions) :
    ∃ e, logExceptionEntry h cid env site op (.prim (.pstr s)) opts = .ok e ∧
      e.level = .ERROR ∧
      e.message = "StringError: " ++ s ∧
      ctxGet e.context "error_type" = some (.prim (.pstr "StringError")) ∧
      ctxGet e.context "original_error" = some (.prim (.pstr s)) := by
  refine ⟨_, rfl, rfl, ?_, ?_, ?_⟩
  · exact congrArg (fun t => t ++ s) (rfl : ("StringError" ++ ": " : String) = "StringError: ")
  · simp [ctxGet, List.lookup]
  · simp [ctxGet, List.lookup]

/-! ## C6: stack trace presence -/

/-- C6 (amended): entries built by `createLogEntry` (the `log`,
`debug`, ..., `critical` path) carry a stack trace exactly when the
level is ERROR or CRITICAL or the include-stack flag is set; entries
built by `logException` instead carry the normalized error's own stack,
so their `stack_trace` is present only when the thrown value is an
`Error` object carrying one — not for string or other error values. -/
theorem stack_trace_presence (cid : String) (env : EnvironmentInfo)
    (site : CallSite) (level : LogLevel) (op msg : String)
    (opts : LogOptions) (h : Heap) (errv : HRef) :
    ((createLogEntry cid env site level op msg opts).stack_trace.isSome = true ↔
      (level = .ERROR ∨ level = .CRITICAL ∨ opts.includeStack = true)) ∧
    (∀ info e, extractErrorInfo h errv = .ok info →
      logExceptionEntry h cid env site op errv opts = .ok e →
      e.stack_trace = info.stack) := by
  constructor
  · simp only [createLogEntry]
    by_cases hc : level = .ERROR ∨ level = .CRITICAL ∨ opts.includeStack = true
    · rw [if_pos hc]
      simpa using hc
    · rw [if_neg hc]
      simpa using hc
  · intro info e hinfo hok
    unfold logExceptionEntry at hok
    rw [hinfo] at hok
    cases hok
    rfl

/-- The entry `logException` produces for the `Error` object of
`heapErr`. -/
def exnEntryW : LogEntry :=
  ⟨"2024-06-01T12:00:00.000Z", .ERROR, "cid", "op", "Error: emsg",
   [("error_type", .prim (.pstr "Error")), ("original_error", .obj 0)],
   envEx, none, some "STACK", none, none⟩

/-- Witness for `stack_trace_presence`: an ERROR-level entry carries
the captured stack, and `logException` on an `Error` object carries
that object's stack. -/
theorem stack_trace_presence_witness :
    (createLogEntry "cid" envEx siteEx .ERROR "op" "m" optsNone).stack_trace.isSome = true ∧
    logExceptionEntry heapErr "cid" envEx siteEx "op" (.obj 0) optsNone = .ok exnEntryW ∧
    exnEntryW.stack_trace = some "STACK" := by
  refine ⟨?_, rfl, ?_⟩
  · exact (stack_trace_presence "cid" envEx siteEx .ERROR "op" "m" optsNone
      emptyHeap (.prim .pnull)).1.mpr (Or.inl rfl)
  · exact (stack_trace_presence "cid" envEx siteEx .ERROR "op" "m" optsNone
      heapErr (.obj 0)).2 ⟨"emsg", "Error", some "STACK", .obj 0⟩ exnEntryW rfl rfl

/-- C6 (counterexample): `logException("x", "boom")` yields an entry at
level ERROR whose `stack_trace` is absent, refuting "every entry with
level ERROR or CRITICAL has its stack_trace field present" as stated
for entries produced by `logException` with a string error value. -/
theorem logException_string_no_stack_cex :
    ∃ e, logExceptionEntry emptyHeap "cid" envEx siteEx "x"
        (.prim (.pstr "boom")) optsNone = .ok e ∧
      e.level = .ERROR ∧ e.stack_trace = none :=
  ⟨_, rfl, rfl, rfl⟩

/-! ## C10: `getConfig` returns a copy -/

/-- C10: `getConfig` returns a freshly allocated copy of the resolved
configuration: its fields equal the stored configuration at call time,
its address differs from the stored object's, and no sequence of
mutations of the returned object changes the stored configuration (and
hence the behavior of later operations, which read only the stored
object). -/
theorem getConfig_returns_copy (s : CfgStore) (cfgAddr : Nat) (c : Config)
    (h : readCell s cfgAddr = some c) :
    (getConfigOp s cfgAddr).2 ≠ cfgAddr ∧
    readCell (getConfigOp s cfgAddr).1 (getConfigOp s cfgAddr).2 = some c ∧
    readCell (getConfigOp s cfgAddr).1 cfgAddr = some c ∧
    ∀ ws, readCell
        (applyWrites (getConfigOp s cfgAddr).1 (getConfigOp s cfgAddr).2 ws)
        cfgAddr = some c := by
  have hlt : cfgAddr < s.cells.length := (List.getElem?_eq_some_iff.mp h).1
  have hop : getConfigOp s cfgAddr = (⟨s.cells ++ [c]⟩, s.cells.length) := by
    unfold getConfigOp
    rw [h]
  rw [hop]
  refine ⟨by omega, ?_, ?_, ?_⟩
  · exact List.getElem?_concat_length s.cells c
  · simpa [readCell] using
      (List.getElem?_append_left hlt).trans h
  · intro ws
    have key : ∀ (st : CfgStore), readCell st cfgAddr = some c →
        readCell (applyWrites st s.cells.length ws) cfgAddr = some c := by
      induction ws with
      | nil => intro st hst; exact hst
      | cons w rest ih =>
        intro st hst
        have hw : readCell (writeCell st s.cells.length w) cfgAddr =
            readCell st cfgAddr := by
          simpa [readCell, writeCell] using
            List.getElem?_set_ne (by omega : s.cells.length ≠ cfgAddr)
        exact ih _ (hw.trans hst)
    exact key _ (by
      simpa [readCell] using (List.getElem?_append_left hlt).trans h)

/-- Witness for `getConfig_returns_copy` on a one-cell store, with a
concrete mutation of the returned copy. -/
theorem getConfig_returns_copy_witness :
    readCell ⟨[DEFAULT_CONFIG]⟩ 0 = some DEFAULT_CONFIG ∧
    (getConfigOp ⟨[DEFAULT_CONFIG]⟩ 0).2 ≠ 0 ∧
    readCell (getConfigOp ⟨[DEFAULT_CONFIG]⟩ 0).1
      (getConfigOp ⟨[DEFAULT_CONFIG]⟩ 0).2 = some DEFAULT_CONFIG ∧
    readCell (applyWrites (getConfigOp ⟨[DEFAULT_CONFIG]⟩ 0).1
      (getConfigOp ⟨[DEFAULT_CONFIG]⟩ 0).2 [cfgZero]) 0 = some DEFAULT_CONFIG := by
  have h := getConfig_returns_copy ⟨[DEFAULT_CONFIG]⟩ 0 DEFAULT_CONFIG rfl
  exact ⟨rfl, h.1, h.2.1, h.2.2.2 [cfgZero]⟩

/-! ## C4: save/load round trip -/

/-- A context value that serializes faithfully: a primitive other than
`undefined` (whose property would be omitted) and `BigInt` (which
throws). -/
def SimpleCtxVal (r : HRef) : Prop :=
  ∃ q : Prim, r = .prim q ∧ q ≠ .pundef ∧ ∀ n, q ≠ .pbigint n

/-- A context map all of whose values serialize faithfully. -/
def SimpleCtx (l : List (String × HRef)) : Prop :=
  ∀ p ∈ l, SimpleCtxVal p.2

/-- Serializing a faithful context map succeeds, leaves the `seen` set
unchanged, and parses back to the same map. -/
theorem serFields_simple (h : Heap) (fuel : Nat) (seen : List Nat)
    (l : List (String × HRef)) (hl : SimpleCtx l) :
    ∃ ctxJ, serFields h fuel seen l = .ok (seen, ctxJ) ∧
      ctxOfJson ctxJ = some l := by
  induction l with
  | nil => exact ⟨[], rfl, rfl⟩
  | cons p rest ih =>
    obtain ⟨k, v⟩ := p
    obtain ⟨q, rfl, hqu, hqb⟩ := hl (k, v) (List.mem_cons_self _ _)
    obtain ⟨ctxJ, hser, hparse⟩ :=
      ih (fun p hp => hl p (List.mem_cons_of_mem _ hp))
    simp only [serFields] at hser
    cases q with
    | pundef => exact absurd rfl hqu
    | pbigint n => exact absurd rfl (hqb n)
    | pnull =>
      exact ⟨(k, .jnull) :: ctxJ,
        by simp [serFields, serFieldsWith, serVal, hser],
        by simp [ctxOfJson, jvalToHRef, hparse]⟩
    | pbool b =>
      exact ⟨(k, .jbool b) :: ctxJ,
        by simp [serFields, serFieldsWith, serVal, hser],
        by simp [ctxOfJson, jvalToHRef, hparse]⟩
    | pnum n =>
      exact ⟨(k, .jnum n) :: ctxJ,
        by simp [serFields, serFieldsWith, serVal, hser],
        by simp [ctxOfJson, jvalToHRef, hparse]⟩
    | pstr s =>
      exact ⟨(k, .jstr s) :: ctxJ,
        by simp [serFields, serFieldsWith, serVal, hser],
        by simp [ctxOfJson, jvalToHRef, hparse]⟩

theorem stringToLevel_levelToString (lv : LogLevel) :
    stringToLevel (levelToString lv) = some lv := by
  cases lv <;> rfl

theorem levelToString_ne_empty (lv : LogLevel) : levelToString lv ≠ "" := by
  cases lv <;> decide

theorem envOfJson_envJson (env : EnvironmentInfo) :
    envOfJson (some (envJson env)) = some env := by
  simp [envOfJson, envJson, getField, List.lookup, asString]

/-- A line saved by `saveAllLogs` parses back to the entry it came
from, provided the entry's context is faithful and its `timestamp` and
`operation` are nonempty (truthy). -/
theorem parse_saved_entry (h : Heap) (ts : String) (e : LogEntry)
    (hctx : SimpleCtx e.context) (hts : e.timestamp ≠ "")
    (hop : e.operation ≠ "") :
    parseLogLine (.json (entrySafeJson h ts e)) = some e := by
  obtain ⟨ctxJ, hser, hparse⟩ := serFields_simple h (serFuel h) [] e.context hctx
  unfold entrySafeJson
  rw [hser]
  obtain ⟨ts0, lv, cid, op, msg, ctx, env, src, stk, hn, at0⟩ := e
  simp only at hts hop hparse ⊢
  cases src <;> cases stk <;> cases hn <;> cases at0 <;>
    simp [parseLogLine, entryOfJson, optJField, getField, fieldTruthy,
      jvTruthy, List.lookup, asString, optStrField, hts, hop, hparse,
      stringToLevel_levelToString, levelToString_ne_empty,
      envOfJson_envJson]

/-- C4 (amended): `saveAllLogs(p)` then `loadLogsFromFile(p)` on a
fresh instance reproduces the same ordered entries, for entries whose
`timestamp` and `operation` are truthy (nonempty) — the load-time
validity check also drops well-formed lines with an empty (falsy)
`operation` or `timestamp` — whose contexts serialize faithfully, and
which fit in the fresh instance's memory cap. -/
theorem save_load_roundtrip (h : Heap) (ts : String) (logs : List LogEntry)
    (cfg : Config)
    (hwf : ∀ e ∈ logs, SimpleCtx e.context ∧ e.timestamp ≠ "" ∧ e.operation ≠ "")
    (hcap : (logs.length : Int) ≤ cfg.maxMemoryLogs) :
    (loadLogsFromFile ⟨cfg, []⟩ (saveAllLogsFile h ts logs)).logs = logs := by
  have hparse : ∀ (l : List LogEntry),
      (∀ e ∈ l, SimpleCtx e.context ∧ e.timestamp ≠ "" ∧ e.operation ≠ "") →
      (l.map (fun e => FileLine.json (entrySafeJson h ts e))).filterMap
        parseLogLine = l := by
    intro l hl
    induction l with
    | nil => rfl
    | cons e rest ih =>
      obtain ⟨h1, h2, h3⟩ := hl e (List.mem_cons_self _ _)
      simp [List.filterMap_cons, parse_saved_entry h ts e h1 h2 h3,
        ih (fun x hx => hl x (List.mem_cons_of_mem _ hx))]
  unfold loadLogsFromFile saveAllLogsFile
  rw [hparse logs hwf]
  simp only [List.nil_append]
  rw [if_neg (by omega)]

/-- Witness for `save_load_roundtrip` on one concrete entry. -/
theorem save_load_roundtrip_witness :
    (∀ e ∈ [entryEx], SimpleCtx e.context ∧ e.timestamp ≠ "" ∧ e.operation ≠ "") ∧
    (([entryEx].length : Int) ≤ cfgKeepOff.maxMemoryLogs) ∧
    (loadLogsFromFile ⟨cfgKeepOff, []⟩
      (saveAllLogsFile emptyHeap "t" [entryEx])).logs = [entryEx] := by
  have hwf : ∀ e ∈ [entryEx], SimpleCtx e.context ∧ e.timestamp ≠ "" ∧ e.operation ≠ "" := by
    intro e he
    simp only [List.mem_singleton] at he
    subst he
    exact ⟨fun p hp => absurd hp (by simp [entryEx]), by decide, by decide⟩
  refine ⟨hwf, by decide, ?_⟩
  exact save_load_roundtrip emptyHeap "t" [entryEx] cfgKeepOff hwf (by decide)

/-- An otherwise well-formed entry whose `operation` is the empty
string. -/
def entryNoOp : LogEntry :=
  ⟨"2024-06-01T12:00:00.000Z", .INFO, "cid", "", "m", [], envEx,
   none, none, none, none⟩

/-- C4 (counterexample): an entry with an empty `operation` is saved as
a perfectly well-formed line but dropped by the load-time truthiness
check, so the round trip loses it even though its line was not
malformed. -/
theorem empty_operation_dropped_cex :
    entryNoOp.operation = "" ∧
    (loadLogsFromFile ⟨cfgKeepOff, []⟩
      (saveAllLogsFile emptyHeap "t" [entryNoOp])).logs = [] ∧
    ([entryNoOp] : List LogEntry) ≠ [] := by
  refine ⟨rfl, by decide, by decide⟩

/-! ## C1: pipeline ordering -/

theorem stepEv_rotate (m : Nat) (lines : Nat → String) (s : FileState)
    (t : Nat) :
    allLines (stepEv m lines s (.rotate t)) = allLines s ∧
    (stepEv m lines s (.rotate t)).queue = s.queue := by
  obtain ⟨act, rot, q⟩ := s
  cases act with
  | none => exact ⟨rfl, rfl⟩
  | some content =>
    by_cases hsz : fileSize content ≤ m
    · simp [stepEv, hsz]
    · simp [stepEv, hsz, allLines]

theorem stepEv_enqueue (m : Nat) (lines : Nat → String) (s : FileState)
    (t : Nat) :
    allLines (stepEv m lines s (.enqueue t)) = allLines s ∧
    (stepEv m lines s (.enqueue t)).queue = s.queue ++ [lines t] := by
  obtain ⟨act, rot, q⟩ := s
  exact ⟨rfl, rfl⟩

theorem stepEv_flush (m : Nat) (lines : Nat → String) (s : FileState)
    (l : String) (rest : List String) (hq : s.queue = l :: rest) :
    allLines (stepEv m lines s .flush) = allLines s ++ [l] ∧
    (stepEv m lines s .flush).queue = rest := by
  obtain ⟨act, rot, q⟩ := s
  simp only at hq
  subst hq
  simp [stepEv, allLines]

/-- The write-order invariant: running any schedule whose flushes are
backed by pending writes appends exactly the enqueued lines, in enqueue
order, to the durable content followed by the still-pending queue. -/
theorem run_invariant (maxSize : Nat) (lines : Nat → String) :
    ∀ (tr : List Ev) (s : FileState),
      flushesOk s.queue.length tr = true →
      allLines (runTrace maxSize lines s tr) ++
          (runTrace maxSize lines s tr).queue =
        (allLines s ++ s.queue) ++ (enqOrder tr).map lines ∧
      (runTrace maxSize lines s tr).queue.length + tr.count Ev.flush =
        s.queue.length + (enqOrder tr).length := by
  intro tr
  induction tr with
  | nil =>
    intro s _
    simp [runTrace, enqOrder]
  | cons e rest ih =>
    intro s h
    have hrun : runTrace maxSize lines s (e :: rest) =
        runTrace maxSize lines (stepEv maxSize lines s e) rest := rfl
    cases e with
    | rotate t =>
      obtain ⟨ha, hqe⟩ := stepEv_rotate maxSize lines s t
      have h' : flushesOk (stepEv maxSize lines s (.rotate t)).queue.length
          rest = true := by
        rw [hqe]
        simpa [flushesOk] using h
      obtain ⟨ih1, ih2⟩ := ih (stepEv maxSize lines s (.rotate t)) h'
      rw [hrun]
      constructor
      · rw [ih1, ha, hqe]
        simp [enqOrder]
      · rw [hqe] at ih2
        have hc1 : List.count Ev.flush (Ev.rotate t :: rest) =
            List.count Ev.flush rest := by simp
        have he1 : enqOrder (Ev.rotate t :: rest) = enqOrder rest := by
          simp [enqOrder]
        rw [hc1, he1]
        omega
    | enqueue t =>
      obtain ⟨ha, hqe⟩ := stepEv_enqueue maxSize lines s t
      have h' : flushesOk (stepEv maxSize lines s (.enqueue t)).queue.length
          rest = true := by
        rw [hqe]
        simpa [flushesOk] using h
      obtain ⟨ih1, ih2⟩ := ih (stepEv maxSize lines s (.enqueue t)) h'
      rw [hrun]
      constructor
      · rw [ih1, ha, hqe]
        simp [enqOrder]
      · rw [hqe] at ih2
        have hc1 : List.count Ev.flush (Ev.enqueue t :: rest) =
            List.count Ev.flush rest := by simp
        have he1 : (enqOrder (Ev.enqueue t :: rest)).length =
            (enqOrder rest).length + 1 := by simp [enqOrder]
        rw [hc1, he1]
        simp only [List.length_append, List.length_singleton] at ih2
        omega
    | flush =>
      have hpos : 0 < s.queue.length ∧
          flushesOk (s.queue.length - 1) rest = true := by
        simpa [flushesOk, Bool.and_eq_true, decide_eq_true_eq] using h
      obtain ⟨l, qrest, hq⟩ : ∃ l qrest, s.queue = l :: qrest := by
        cases hsq : s.queue with
        | nil => rw [hsq] at hpos; simp at hpos
        | cons a b => exact ⟨a, b, rfl⟩
      obtain ⟨ha, hqe⟩ := stepEv_flush maxSize lines s l qrest hq
      have h' : flushesOk (stepEv maxSize lines s .flush).queue.length
          rest = true := by
        rw [hqe]
        have : s.queue.length - 1 = qrest.length := by rw [hq]; simp
        rw [← this]
        exact hpos.2
      obtain ⟨ih1, ih2⟩ := ih (stepEv maxSize lines s .flush) h'
      rw [hrun]
      constructor
      · rw [ih1, ha, hqe, hq]
        simp [enqOrder]
      · rw [hqe] at ih2
        have hc1 : List.count Ev.flush (Ev.flush :: rest) =
            List.count Ev.flush rest + 1 := by simp
        have he1 : enqOrder (Ev.flush :: rest) = enqOrder rest := by
          simp [enqOrder]
        have hql : s.queue.length = qrest.length + 1 := by rw [hq]; simp
        rw [hc1, he1, hql]
        omega

/-- C1 (amended): appends to one path are serialized on the per-path
write queue: on every complete schedule, the bytes ever written (across
the rotated and active files) are exactly the complete submitted lines,
one per submission, in enqueue order — no partial or interleaved lines.
The rotation check, however, is not a step of that queue, so other
submissions may run between a submission's size check and its append
(see the counterexample theorem). -/
theorem pipeline_write_order (maxSize : Nat) (lines : Nat → String)
    (n : Nat) (tr : List Ev) (hc : completeTrace n tr = true) :
    allLines (runTrace maxSize lines initFileState tr) =
      (enqOrder tr).map lines ∧
    (runTrace maxSize lines initFileState tr).queue = [] := by
  have hcomp := hc
  simp only [completeTrace, validTrace, Bool.and_eq_true] at hcomp
  have hflushOk : flushesOk 0 tr = true := hcomp.1.2
  have hcount : tr.count Ev.flush = (enqOrder tr).length := by
    have := hcomp.2
    simpa [decide_eq_true_eq] using this
  obtain ⟨heq, hlen⟩ := run_invariant maxSize lines tr initFileState
    (by simpa [initFileState] using hflushOk)
  have hinit : initFileState.queue.length = 0 := rfl
  have hq0 : (runTrace maxSize lines initFileState tr).queue.length = 0 := by
    omega
  have hqe : (runTrace maxSize lines initFileState tr).queue = [] :=
    List.length_eq_zero.mp hq0
  rw [hqe] at heq
  simp [initFileState, allLines] at heq
  exact ⟨by simpa using heq, hqe⟩

/-- The concrete schedule with two submissions where submission 1 runs
entirely between submission 0's size check and its append. -/
def cexTrace : List Ev :=
  [.rotate 0, .rotate 1, .enqueue 1, .flush, .enqueue 0, .flush]

/-- A one-submission complete schedule. -/
def wTrace : List Ev := [.rotate 0, .enqueue 0, .flush]

/-- Witness for `pipeline_write_order` on a concrete schedule. -/
theorem pipeline_write_order_witness :
    completeTrace 1 wTrace = true ∧
    allLines (runTrace 100 (fun _ => "a") initFileState wTrace) =
      (enqOrder wTrace).map (fun _ => "a") ∧
    (runTrace 100 (fun _ => "a") initFileState wTrace).queue = [] := by
  have h := pipeline_write_order 100 (fun _ => "a") 1 wTrace (by decide)
  exact ⟨by decide, h.1, h.2⟩

/-- C1 (counterexample): a valid complete schedule of the code in which
submission 1's rotation check, enqueue and append all fall between
submission 0's size check and its append — the rotation check runs
outside the per-path queue, so the size-check/rename/append sequence is
not one atomic pipeline step; the file content also shows write order
following enqueue order (line "1" before line "0"), not submission
(rotation-check) order. -/
theorem rotation_check_interleaving_cex :
    completeTrace 2 cexTrace = true ∧
    interleaveFree 2 cexTrace = false ∧
    allLines (runTrace 100 (fun t => toString t) initFileState cexTrace) =
      ["1", "0"] := by
  refine ⟨by decide, by decide, by decide⟩

/-! ## C8: `safeStringify` is cycle-safe and never raises -/

/-- A value that is not a `BigInt` (`JSON.stringify` throws on those). -/
def primOk : HRef → Bool
  | .prim (.pbigint _) => false
  | _ => true

/-- A heap none of whose property values is a `BigInt`. -/
def heapNoBigInt (h : Heap) : Prop :=
  ∀ o ∈ h.objects, ∀ p ∈ o.fields, primOk p.2 = true

/-- How many heap objects the replacer's `seen` set does not yet hold. -/
def unseenCount (h : Heap) (seen : List Nat) : Nat :=
  ((List.range h.objects.length).filter (fun i => decide (i ∉ seen))).length

theorem unseenCount_le (h : Heap) {seen seen2 : List Nat}
    (hsub : seen ⊆ seen2) : unseenCount h seen2 ≤ unseenCount h seen := by
  refine (List.monotone_filter_right (List.range h.objects.length)
    (fun a ha => ?_)).length_le
  simp only [decide_eq_true_eq] at ha ⊢
  exact fun hmem => ha (hsub hmem)

theorem unseenCount_cons_lt (h : Heap) (seen : List Nat) (i : Nat)
    (hi : i < h.objects.length) (hns : i ∉ seen) :
    unseenCount h (i :: seen) < unseenCount h seen := by
  unfold unseenCount
  have hcong : (List.range h.objects.length).filter
        (fun x => decide (x ∉ i :: seen)) =
      ((List.range h.objects.length).filter
        (fun x => decide (x ∉ seen))).filter (fun x => decide (x ≠ i)) := by
    rw [List.filter_filter]
    apply List.filter_congr
    intro a _
    rw [← Bool.decide_and, decide_eq_decide]
    simp only [List.mem_cons, not_or]
  rw [hcong]
  apply List.length_filter_lt_length_iff_exists.mpr
  refine ⟨i, ?_, by simp⟩
  rw [List.mem_filter]
  exact ⟨List.mem_range.mpr hi, by simpa using hns⟩

theorem unseenCount_nil (h : Heap) : unseenCount h [] = h.objects.length := by
  unfold unseenCount
  have : ∀ x ∈ List.range h.objects.length,
      decide (x ∉ ([] : List Nat)) = true := by
    intro x _
    simp
  rw [List.filter_eq_self.mpr this, List.length_range]

theorem subset_of_ok_eq {seen seen2 : List Nat} {x v : JVal}
    (h : (Except.ok (seen, x) : Except SErr (List Nat × JVal)) =
      .ok (seen2, v)) : seen ⊆ seen2 := by
  cases h
  exact List.Subset.refl _

/-- The replacer only ever adds to its `seen` set (field lists). -/
theorem serFieldsWith_seen_mono
    (rec : List Nat → HRef → Except SErr (List Nat × JVal))
    (hrec : ∀ seen r seen2 v, rec seen r = .ok (seen2, v) → seen ⊆ seen2) :
    ∀ (l : List (String × HRef)) (seen seen2 : List Nat)
      (out : List (String × JVal)),
      serFieldsWith rec seen l = .ok (seen2, out) → seen ⊆ seen2 := by
  intro l
  induction l with
  | nil =>
    intro seen seen2 out hok
    simp only [serFieldsWith, Except.ok.injEq, Prod.mk.injEq] at hok
    rw [hok.1]
    exact List.Subset.refl _
  | cons p rest ih =>
    obtain ⟨k, v⟩ := p
    intro seen seen2 out hok
    simp only [serFieldsWith] at hok
    by_cases hv : v = .prim .pundef
    · rw [if_pos hv] at hok
      exact ih seen seen2 out hok
    · rw [if_neg hv] at hok
      cases hrw : rec seen v with
      | error e => rw [hrw] at hok; cases hok
      | ok sv =>
        obtain ⟨seen1, jv⟩ := sv
        rw [hrw] at hok
        dsimp only at hok
        cases hrest : serFieldsWith rec seen1 rest with
        | error e => rw [hrest] at hok; cases hok
        | ok sr =>
          obtain ⟨seen3, jrest⟩ := sr
          rw [hrest] at hok
          simp only [Except.ok.injEq, Prod.mk.injEq] at hok
          rw [← hok.1]
          exact (hrec seen v seen1 jv hrw).trans (ih seen1 seen3 jrest hrest)

/-- The replacer only ever adds to its `seen` set (values). -/
theorem serVal_seen_mono (h : Heap) :
    ∀ (fuel : Nat) (seen : List Nat) (r : HRef) (seen2 : List Nat) (v : JVal),
      serVal h fuel seen r = .ok (seen2, v) → seen ⊆ seen2 := by
  intro fuel
  induction fuel with
  | zero =>
    intro seen r seen2 v hok
    cases r with
    | prim p =>
      cases p with
      | pnull => simp only [serVal] at hok; exact subset_of_ok_eq hok
      | pundef => simp only [serVal] at hok; exact subset_of_ok_eq hok
      | pbool b => simp only [serVal] at hok; exact subset_of_ok_eq hok
      | pnum n => simp only [serVal] at hok; exact subset_of_ok_eq hok
      | pstr s => simp only [serVal] at hok; exact subset_of_ok_eq hok
      | pbigint n => simp only [serVal] at hok; cases hok
    | obj i => cases hok
  | succ fuel ih =>
    intro seen r seen2 v hok
    cases r with
    | prim p =>
      cases p with
      | pnull => simp only [serVal] at hok; exact subset_of_ok_eq hok
      | pundef => simp only [serVal] at hok; exact subset_of_ok_eq hok
      | pbool b => simp only [serVal] at hok; exact subset_of_ok_eq hok
      | pnum n => simp only [serVal] at hok; exact subset_of_ok_eq hok
      | pstr s => simp only [serVal] at hok; exact subset_of_ok_eq hok
      | pbigint n => simp only [serVal] at hok; cases hok
    | obj i =>
      simp only [serVal] at hok
      by_cases hi : i ∈ seen
      · rw [if_pos hi] at hok
        exact subset_of_ok_eq hok
      · rw [if_neg hi] at hok
        cases hget : h.objects[i]? with
        | none =>
          rw [hget] at hok
          exact subset_of_ok_eq hok
        | some o =>
          rw [hget] at hok
          dsimp only at hok
          cases hfl : serFieldsWith (serVal h fuel) (i :: seen) o.fields with
          | error e => rw [hfl] at hok; cases hok
          | ok sr =>
            obtain ⟨seen3, jfs⟩ := sr
            rw [hfl] at hok
            simp only [Except.ok.injEq, Prod.mk.injEq] at hok
            rw [← hok.1]
            exact (List.subset_cons_self i seen).trans
              (serFieldsWith_seen_mono (serVal h fuel) ih o.fields
                (i :: seen) seen3 jfs hfl)

/-- Field lists never exhaust the replacer's recursion bound and,
absent `BigInt` values, serialize successfully — given the same for
values at this fuel. -/
theorem serFieldsWith_sufficient (h : Heap) (fuel : Nat)
    (hP : ∀ seen r, unseenCount h seen < fuel →
      serVal h fuel seen r ≠ .error .fuelOut ∧
      (primOk r = true → heapNoBigInt h →
        ∃ out, serVal h fuel seen r = .ok out)) :
    ∀ (l : List (String × HRef)) (seen : List Nat),
      unseenCount h seen < fuel →
      serFieldsWith (serVal h fuel) seen l ≠ .error .fuelOut ∧
      ((∀ p ∈ l, primOk p.2 = true) → heapNoBigInt h →
        ∃ out, serFieldsWith (serVal h fuel) seen l = .ok out) := by
  intro l
  induction l with
  | nil =>
    intro seen _
    exact ⟨by simp [serFieldsWith], fun _ _ => ⟨(seen, []), rfl⟩⟩
  | cons p rest ih =>
    obtain ⟨k, v⟩ := p
    intro seen hs
    by_cases hv : v = .prim .pundef
    · have hrest := ih seen hs
      constructor
      · simpa [serFieldsWith, hv] using hrest.1
      · intro hpl hb
        obtain ⟨out, hout⟩ :=
          hrest.2 (fun q hq => hpl q (List.mem_cons_of_mem _ hq)) hb
        exact ⟨out, by simpa [serFieldsWith, hv] using hout⟩
    · have hcons : serFieldsWith (serVal h fuel) seen ((k, v) :: rest) =
          match serVal h fuel seen v with
          | .error e => .error e
          | .ok (s2, jv) =>
            match serFieldsWith (serVal h fuel) s2 rest with
            | .error e => .error e
            | .ok (s3, jr) => .ok (s3, (k, jv) :: jr) := by
        simp [serFieldsWith, if_neg hv]
      cases hrw : serVal h fuel seen v with
      | error e =>
        rw [hrw] at hcons
        dsimp only at hcons
        refine ⟨?_, ?_⟩
        · rw [hcons]
          intro hbad
          injection hbad with he
          subst he
          exact (hP seen v hs).1 hrw
        · intro hpl hb
          obtain ⟨out, hout⟩ :=
            (hP seen v hs).2 (hpl (k, v) (List.mem_cons_self _ _)) hb
          rw [hout] at hrw
          cases hrw
      | ok sv =>
        obtain ⟨s2, jv⟩ := sv
        rw [hrw] at hcons
        dsimp only at hcons
        have hs2 : unseenCount h s2 ≤ unseenCount h seen :=
          unseenCount_le h (serVal_seen_mono h fuel seen v s2 jv hrw)
        have hrest := ih s2 (lt_of_le_of_lt hs2 hs)
        cases hrr : serFieldsWith (serVal h fuel) s2 rest with
        | error e =>
          rw [hrr] at hcons
          dsimp only at hcons
          refine ⟨?_, ?_⟩
          · rw [hcons]
            intro hbad
            injection hbad with he
            subst he
            exact hrest.1 hrr
          · intro hpl hb
            obtain ⟨out2, hout2⟩ :=
              hrest.2 (fun q hq => hpl q (List.mem_cons_of_mem _ hq)) hb
            rw [hout2] at hrr
            cases hrr
        | ok sr =>
          obtain ⟨s3, jr⟩ := sr
          rw [hrr] at hcons
          dsimp only at hcons
          refine ⟨?_, fun _ _ => ⟨(s3, (k, jv) :: jr), hcons⟩⟩
          rw [hcons]
          intro hbad
          cases hbad

/-- With fuel exceeding the number of unseen objects, `serVal` never
exhausts its recursion bound (cycles are cut by the `seen` set), and
succeeds outright when no `BigInt` is reachable. -/
theorem serVal_sufficient (h : Heap) :
    ∀ (fuel : Nat) (seen : List Nat) (r : HRef),
      unseenCount h seen < fuel →
      serVal h fuel seen r ≠ .error .fuelOut ∧
      (primOk r = true → heapNoBigInt h →
        ∃ out, serVal h fuel seen r = .ok out) := by
  intro fuel
  induction fuel with
  | zero =>
    intro seen r hs
    exact absurd hs (by omega)
  | succ fuel ih =>
    intro seen r hs
    cases r with
    | prim p =>
      cases p with
      | pnull => exact ⟨by simp [serVal], fun _ _ => ⟨(seen, .jnull), rfl⟩⟩
      | pundef => exact ⟨by simp [serVal], fun _ _ => ⟨(seen, .jundef), rfl⟩⟩
      | pbool b => exact ⟨by simp [serVal], fun _ _ => ⟨(seen, .jbool b), rfl⟩⟩
      | pnum n => exact ⟨by simp [serVal], fun _ _ => ⟨(seen, .jnum n), rfl⟩⟩
      | pstr s => exact ⟨by simp [serVal], fun _ _ => ⟨(seen, .jstr s), rfl⟩⟩
      | pbigint n =>
        exact ⟨by simp [serVal], fun hok _ => by simp [primOk] at hok⟩
    | obj i =>
      by_cases hi : i ∈ seen
      · exact ⟨by simp [serVal, hi], fun _ _ =>
          ⟨(seen, .jstr circularSentinel), by simp [serVal, hi]⟩⟩
      · cases hget : h.objects[i]? with
        | none =>
          exact ⟨by simp [serVal, hi, hget], fun _ _ =>
            ⟨(seen, .jnull), by simp [serVal, hi, hget]⟩⟩
        | some o =>
          have hlt : i < h.objects.length :=
            (List.getElem?_eq_some_iff.mp hget).1
          have hu : unseenCount h (i :: seen) < fuel :=
            lt_of_lt_of_le (unseenCount_cons_lt h seen i hlt hi)
              (Nat.lt_succ_iff.mp hs)
          have hF := serFieldsWith_sufficient h fuel
            (fun s rr hsr => ih s rr hsr) o.fields (i :: seen) hu
          have hobj : serVal h (fuel+1) seen (.obj i) =
              match serFieldsWith (serVal h fuel) (i :: seen) o.fields with
              | .error e => .error e
              | .ok (s2, jfs) => .ok (s2, .jobj jfs) := by
            simp [serVal, hi, hget]
          cases hfl : serFieldsWith (serVal h fuel) (i :: seen) o.fields with
          | error e =>
            rw [hfl] at hobj
            dsimp only at hobj
            refine ⟨?_, ?_⟩
            · rw [hobj]
              intro hbad
              injection hbad with he
              subst he
              exact hF.1 hfl
            · intro _ hb
              obtain ⟨out, hout⟩ :=
                hF.2 (hb o (List.getElem?_mem hget)) hb
              rw [hout] at hfl
              cases hfl
          | ok sr =>
            obtain ⟨s2, jfs⟩ := sr
            rw [hfl] at hobj
            dsimp only at hobj
            refine ⟨?_, fun _ _ => ⟨(s2, .jobj jfs), hobj⟩⟩
            rw [hobj]
            intro hbad
            cases hbad

/-- Every property whose value is an already-seen object is replaced by
the sentinel string in the serialized output. -/
theorem serFieldsWith_sentinel (h : Heap) (fuel : Nat) :
    ∀ (l : List (String × HRef)) (seen seen2 : List Nat)
      (jfs : List (String × JVal)),
      serFieldsWith (serVal h fuel) seen l = .ok (seen2, jfs) →
      ∀ k j, (k, HRef.obj j) ∈ l → j ∈ seen →
        (k, JVal.jstr circularSentinel) ∈ jfs := by
  intro l
  induction l with
  | nil =>
    intro seen seen2 jfs _ k j hmem _
    cases hmem
  | cons p rest ih =>
    obtain ⟨k0, v0⟩ := p
    intro seen seen2 jfs hok k j hmem hj
    by_cases hv : v0 = .prim .pundef
    · simp only [serFieldsWith, if_pos hv] at hok
      rcases List.mem_cons.mp hmem with hhead | htail
      · rw [hv] at hhead
        simp at hhead
      · exact ih seen seen2 jfs hok k j htail hj
    · cases hrw : serVal h fuel seen v0 with
      | error e =>
        simp only [serFieldsWith, if_neg hv, hrw] at hok
        cases hok
      | ok sv =>
        obtain ⟨s2, jv⟩ := sv
        cases hrr : serFieldsWith (serVal h fuel) s2 rest with
        | error e =>
          simp only [serFieldsWith, if_neg hv, hrw, hrr] at hok
          cases hok
        | ok sr =>
          obtain ⟨s3, jr⟩ := sr
          simp only [serFieldsWith, if_neg hv, hrw, hrr, Except.ok.injEq,
            Prod.mk.injEq] at hok
          obtain ⟨h1, h2⟩ := hok
          rcases List.mem_cons.mp hmem with hhead | htail
          · have hk : k0 = k ∧ v0 = HRef.obj j := by
              have := hhead.symm
              simp only [Prod.mk.injEq] at this
              exact this
            obtain ⟨hk0, hv0⟩ := hk
            cases fuel with
            | zero =>
              rw [hv0] at hrw
              simp only [serVal] at hrw
              cases hrw
            | succ f =>
              rw [hv0] at hrw
              simp only [serVal, if_pos hj] at hrw
              obtain ⟨hs, hjv⟩ : seen = s2 ∧ JVal.jstr circularSentinel = jv := by
                simpa using hrw
              rw [← h2, ← hjv, hk0]
              exact List.mem_cons_self _ _
          · have hsub := serVal_seen_mono h fuel seen v0 s2 jv hrw
            rw [← h2]
            exact List.mem_cons_of_mem _ (ih s2 s3 jr hrr k j htail (hsub hj))

/-- C8: serialization never raises: the replacer's `seen` tracking cuts
every repeated composite reference (so the traversal is bounded — fuel
exhaustion is unreachable), each already-visited reference appears in
the output as the sentinel marker string, and on any other stringify
failure (a `BigInt` value) the result degrades to the fixed-shape
fallback object with fields `error`, `originalError` and `timestamp`. -/
theorem safeStringify_cycle_safe (h : Heap) (ts : String) (r : HRef) :
    serValTop h r ≠ .error .fuelOut ∧
    (∀ e, serValTop h r = .error e →
      safeStringify h ts r = fallbackJson (sErrMessage e) ts) ∧
    (∀ i o k, h.objects[i]? = some o → (k, HRef.obj i) ∈ o.fields →
      heapNoBigInt h →
      ∃ fs, safeStringify h ts (.obj i) = .jobj fs ∧
        (k, JVal.jstr circularSentinel) ∈ fs) := by
  refine ⟨?_, ?_, ?_⟩
  · have hsuf := (serVal_sufficient h (serFuel h) [] r
      (by rw [unseenCount_nil]; simp [serFuel])).1
    unfold serValTop
    cases hsv : serVal h (serFuel h) [] r with
    | error e =>
      intro hbad
      injection hbad with he
      subst he
      exact hsuf hsv
    | ok p =>
      intro hbad
      cases hbad
  · intro e he
    unfold safeStringify
    rw [he]
  · intro i o k hget hmem hb
    have hlt : i < h.objects.length := (List.getElem?_eq_some_iff.mp hget).1
    have hu : unseenCount h [i] < h.objects.length := by
      have := unseenCount_cons_lt h [] i hlt (by simp)
      rwa [unseenCount_nil] at this
    have hF := serFieldsWith_sufficient h h.objects.length
      (fun s rr hsr => serVal_sufficient h h.objects.length s rr hsr)
      o.fields [i] hu
    obtain ⟨out, hout⟩ := hF.2 (hb o (List.getElem?_mem hget)) hb
    obtain ⟨s2, jfs⟩ := out
    have hval : serVal h (serFuel h) [] (.obj i) = .ok (s2, .jobj jfs) := by
      show serVal h (h.objects.length + 1) [] (.obj i) = _
      simp [serVal, hget, hout]
    refine ⟨jfs, ?_, ?_⟩
    · unfold safeStringify serValTop
      rw [hval]
    · exact serFieldsWith_sentinel h h.objects.length o.fields [i] s2 jfs
        hout k i hmem (by simp)

/-- Witness for `safeStringify_cycle_safe` on the self-referential
one-object heap. -/
theorem safeStringify_cycle_safe_witness :
    serValTop heapCyc (.obj 0) ≠ .error .fuelOut ∧
    heapNoBigInt heapCyc ∧
    ∃ fs, safeStringify heapCyc "t" (.obj 0) = .jobj fs ∧
      ("self", JVal.jstr circularSentinel) ∈ fs := by
  have h := safeStringify_cycle_safe heapCyc "t" (.obj 0)
  have hb : heapNoBigInt heapCyc := by
    unfold heapNoBigInt
    decide
  exact ⟨h.1, hb,
    h.2.2 0 ⟨none, [("self", .obj 0)]⟩ "self" rfl (by decide) hb⟩

end VibeSpec
